import Mathlib

/-!
# Verification of the JobMate ML API core logic

Shallow embedding of `src/main.py` (a Flask HTTP service): the text
normalizer `basic_preprocess`, the auth middleware `check_auth`, the
top-5 similarity ranking of `recommend_jobs`, the `get_all_categories`
handler and the `get_job_detail` handler.

Opaque external artifacts (the fitted TF-IDF vectorizer, the cosine
similarity against the loaded job-vector matrix, the fitted classifier)
are abstracted: the composition
`cosine_similarity(vectorizer.transform([text]), job_vectors).flatten()`
is a parameter `sim : String → List ℚ` producing one score per job row,
and `classifier.classes_` is a parameter `List String`.  Floating-point
scores are modelled as rationals.
-/

namespace JobMate

/-! ## Text normalizer — `basic_preprocess`, src/main.py lines 90–95

```python
def basic_preprocess(text: str) -> str:
    text = text.lower()
    text = re.sub(r'[^a-z\s]', '', text)
    text = re.sub(r'\s+', ' ', text).strip()
    return text
```

`Char.isWhitespace` models the regex class `\s`; `re.sub(r'\s+', ' ', ·)`
replaces each maximal whitespace run by a single space (`collapseWS`),
and `.strip()` removes leading and trailing whitespace (`stripWS`). -/

/-- The character class `[a-z\s]` kept by `re.sub(r'[^a-z\s]', '', ·)`. -/
def keepChar (c : Char) : Bool := ('a' ≤ c && c ≤ 'z') || c.isWhitespace

/-- Python `re.sub(r'\s+', ' ', ·)`: collapse each maximal run of whitespace
characters into a single space. -/
def collapseWS : List Char → List Char
  | [] => []
  | [c] => if c.isWhitespace then [' '] else [c]
  | c :: d :: cs =>
    if c.isWhitespace && d.isWhitespace then collapseWS (d :: cs)
    else (if c.isWhitespace then ' ' else c) :: collapseWS (d :: cs)

/-- Python `str.strip()`: drop whitespace from both ends. -/
def stripWS (l : List Char) : List Char :=
  ((l.dropWhile Char.isWhitespace).reverse.dropWhile Char.isWhitespace).reverse

/-- The normalization pipeline on character lists: lowercase, keep only
`[a-z\s]`, collapse whitespace runs, strip. -/
def normalizeChars (l : List Char) : List Char :=
  stripWS (collapseWS ((l.map Char.toLower).filter keepChar))

/-- The function `basic_preprocess` on strings (src/main.py lines 90–95). -/
def basic_preprocess (s : String) : String := ⟨normalizeChars s.data⟩

/-! ## Environment and auth gate — src/main.py lines 22–23 and 109–120 -/

/-- Python `os.getenv(key, dflt)` over an environment modelled as an
association list. -/
def getenv (env : List (String × String)) (key dflt : String) : String :=
  ((env.lookup key).getD dflt)

/-- The constant `API_TOKEN = os.getenv("API_TOKEN", "default_token")`
(src/main.py line 23). -/
def API_TOKEN (env : List (String × String)) : String :=
  getenv env "API_TOKEN" "default_token"

/-- The parts of a Flask request that `check_auth` inspects:
`request.method`, `request.endpoint` (the matched route's endpoint name,
`none` when no route matched) and `request.headers`. -/
structure HttpRequest where
  method : String
  endpoint : Option String
  headers : List (String × String)
deriving DecidableEq, Repr

/-- Outcome of the `@app.before_request` middleware: either fall through
to the route handler, or short-circuit with
401 `{"detail": "Unauthorized"}`. -/
inductive AuthResult
  | allow
  | unauthorized
deriving DecidableEq, Repr

/-- The middleware `check_auth` (src/main.py lines 109–120):

```python
if request.method == 'OPTIONS':
    return
if request.endpoint in ['root', 'healthcheck']:
    return
if "Authorization" not in request.headers or \
   request.headers["Authorization"] != f"Bearer {API_TOKEN}":
    return jsonify({"detail": "Unauthorized"}), 401
``` -/
def check_auth (token : String) (req : HttpRequest) : AuthResult :=
  if req.method = "OPTIONS" then .allow
  else if req.endpoint = some "root" ∨ req.endpoint = some "healthcheck" then .allow
  else if req.headers.lookup "Authorization" = some ("Bearer " ++ token) then .allow
  else .unauthorized

/-! ## Metadata table rows

A row of `job_metadata`.  The startup code (src/main.py lines 77–79)
guarantees an integer `id` column, modelled as the `id` field; the
remaining columns are an association list from *original* column name to
string value, as `to_dict(orient="records")` exposes them in
`get_job_detail`.  The field renaming that pandas `itertuples` applies
in `recommend_jobs` is modelled separately by `asdict` below. -/

structure Row where
  id : Int
  attrs : List (String × String)
deriving DecidableEq, Repr

instance : Inhabited Row := ⟨⟨0, []⟩⟩

/-- Whether a column name survives as a namedtuple field name under
`collections.namedtuple(..., rename=True)`, which pandas `itertuples`
uses: a valid Python identifier that does not start with an underscore.
ASCII approximation; Python keywords (also renamed) are ignored here
since no looked-up column name is one, and the names the handler looks
up ("Job Title", "Job Description") contain spaces, failing every
branch. -/
def validFieldChars : List Char → Bool
  | [] => false
  | c :: cs => c.isAlpha && cs.all (fun d => d.isAlphanum || d == '_')

/-- String version of `validFieldChars`. -/
def validFieldName (s : String) : Bool := validFieldChars s.data

/-- pandas `top_jobs.itertuples(index=False)` yields namedtuples built
with `collections.namedtuple(..., rename=True)`: a column whose name is
not a usable field name is renamed to the positional name `_k`.
`asdict r` models `row._asdict()` for such a row: the columns keyed by
the namedtuple's field names (`k` counts from 1 because the model's
separately carried `id` column occupies position 0 and keeps its valid
name, accessed as `row.id` in the handler). -/
def asdict (r : Row) : List (String × String) :=
  r.attrs.enum.map (fun p =>
    (if validFieldName p.2.1 then p.2.1 else "_" ++ toString (p.1 + 1), p.2.2))

/-! ## Similarity ranking — `recommend_jobs`, src/main.py lines 142–165 -/

/-- Comparison used to model `numpy.argsort` on the similarity vector:
ascending by score, ties by ascending index (a total order; numpy leaves
the tie order implementation-defined, any argsort satisfies the claims
proved below). Out-of-range indices read score 0 via `getD`. -/
def argsortLe (s : List ℚ) (i j : ℕ) : Bool :=
  decide (s.getD i 0 < s.getD j 0) ||
    (decide (s.getD i 0 = s.getD j 0) && decide (i ≤ j))

/-- Python `similarities.argsort()`: the indices `0 … n-1` sorted by ascending
similarity score. -/
def argsort (s : List ℚ) : List ℕ :=
  (List.range s.length).mergeSort (argsortLe s)

/-- Python `top_indices = similarities.argsort()[-5:][::-1]`
(src/main.py line 152): the last 5 entries of the ascending argsort
(`drop (n - 5)`, all of them when `n < 5`), reversed. -/
def topIndices (s : List ℚ) : List ℕ :=
  ((argsort s).drop (s.length - 5)).reverse

/-- Python `round(float(x), 4)`: round to 4 decimal places. -/
def round4 (x : ℚ) : ℚ := (round (x * 10000) : ℤ) / 10000

/-- One element of the `recommendations` response list
(src/main.py lines 155–163). -/
structure Recommendation where
  job_id : Int
  job_title : String
  description : String
  similarity_score : ℚ
deriving DecidableEq, Repr

/-- Result of the `/recommend` handler: 200 with a recommendation list,
or 400 `{"detail": "Missing 'text' in request body"}`. -/
inductive RecommendResult
  | ok (recommendations : List Recommendation)
  | missingText
deriving DecidableEq, Repr

/-- The handler `recommend_jobs` (src/main.py lines 142–165).  `sim` abstracts
`cosine_similarity(unsupervised_vectorizer.transform([text]), job_vectors).flatten()`;
`body` is the parsed JSON object of the request (`none` models an absent
or non-object body, for which Python's `not data` is true).

```python
data = request.get_json()
if not data or 'text' not in data:
    return jsonify({"detail": "Missing 'text' in request body"}), 400
text = basic_preprocess(data.get("text"))
similarities = cosine_similarity(vector, job_vectors).flatten()
top_indices = similarities.argsort()[-5:][::-1]
top_jobs = job_metadata.iloc[top_indices]
recommendations = [
    { "job_id": int(row.id),
      "job_title": row._asdict().get("Job Title", "N/A"),
      "description": row._asdict().get("Job Description", "")[:300],
      "similarity_score": round(float(similarities[idx]), 4) }
    for idx, row in zip(top_indices, top_jobs.itertuples(index=False))]
```

Note `row` is an `itertuples` namedtuple, so `row._asdict()` is keyed by
the *renamed* field names (`asdict` above), not the original column
names. -/
def recommend_jobs (sim : String → List ℚ) (job_metadata : List Row)
    (body : Option (List (String × String))) : RecommendResult :=
  match body with
  | none => .missingText
  | some data =>
    match data.lookup "text" with
    | none => .missingText
    | some raw =>
      let text := basic_preprocess raw
      let similarities := sim text
      let top_indices := topIndices similarities
      let top_jobs := top_indices.map (fun i => job_metadata.getD i default)
      .ok ((top_indices.zip top_jobs).map (fun p =>
        { job_id := p.2.id
          job_title := ((asdict p.2).lookup "Job Title").getD "N/A"
          description := (((asdict p.2).lookup "Job Description").getD "").take 300
          similarity_score := round4 (similarities.getD p.1 0) }))

/-! ## Categories — `get_all_categories`, src/main.py lines 184–192 -/

/-- Python `sorted(list(classifier.classes_))` (src/main.py line 188); the
classifier's label array is the parameter `classes`. -/
def get_all_categories (classes : List String) : List String :=
  classes.mergeSort (fun a b => decide (a ≤ b))

/-! ## Job detail — `get_job_detail`, src/main.py lines 194–204 -/

/-- Result of `/jobs/{id}`: 200 with the full row as a flat object, or
404 `{"detail": "Job not found"}`. -/
inductive JobDetailResult
  | ok (job : Row)
  | notFound
deriving DecidableEq, Repr

/-- The handler `get_job_detail` (src/main.py lines 194–204):

```python
job = job_metadata[job_metadata['id'] == job_id]
if job.empty:
    return jsonify({"detail": "Job not found"}), 404
return jsonify(job.to_dict(orient="records")[0])
```

The boolean-mask filter keeps table row order;
`to_dict(orient="records")[0]` takes the first surviving row. -/
def get_job_detail (job_metadata : List Row) (job_id : Int) : JobDetailResult :=
  match job_metadata.filter (fun r => r.id == job_id) with
  | [] => .notFound
  | r :: _ => .ok r



/-! ### Character-level facts -/

theorem toLower_fix {c : Char} (h1 : 'a' ≤ c) : c.toLower = c := by
  rw [Char.le_def] at h1
  have h2 : 97 ≤ c.toNat := h1
  simp only [Char.toLower]
  rw [if_neg]
  omega

theorem not_ws_of_ge_a {c : Char} (h1 : 'a' ≤ c) : c.isWhitespace = false := by
  rw [Char.le_def] at h1
  have h3 : 97 ≤ c.toNat := h1
  simp only [Char.isWhitespace, Bool.or_eq_false_iff, decide_eq_false_iff_not]
  refine ⟨⟨⟨?_, ?_⟩, ?_⟩, ?_⟩ <;> rintro rfl <;> simp at h3

/-- Normal form of the normalizer's output: every character is a
lowercase ASCII letter or a space, no two adjacent whitespace
characters, and neither end is whitespace. -/
def NormalForm (l : List Char) : Prop :=
  (∀ c ∈ l, ('a' ≤ c ∧ c ≤ 'z') ∨ c = ' ') ∧
  List.Chain' (fun a b => ¬(a.isWhitespace = true ∧ b.isWhitespace = true)) l ∧
  (∀ a, l.head? = some a → a.isWhitespace = false) ∧
  (∀ a, l.getLast? = some a → a.isWhitespace = false)

/-! ### `collapseWS` lemmas -/

theorem mem_collapseWS : ∀ {l : List Char} {c : Char}, c ∈ collapseWS l →
    c = ' ' ∨ (c ∈ l ∧ c.isWhitespace = false)
  | [], c, hc => by simp [collapseWS] at hc
  | [a], c, hc => by
    by_cases h : a.isWhitespace = true
    · simp [collapseWS, h] at hc
      exact Or.inl hc
    · simp [collapseWS, h] at hc
      subst hc
      simp [h]
  | a :: b :: t, c, hc => by
    by_cases hab : (a.isWhitespace && b.isWhitespace) = true
    · rw [collapseWS, if_pos hab] at hc
      rcases mem_collapseWS hc with h | ⟨hm, hw⟩
      · exact Or.inl h
      · exact Or.inr ⟨List.mem_cons_of_mem a hm, hw⟩
    · rw [collapseWS, if_neg hab] at hc
      rcases List.mem_cons.mp hc with h | h
      · by_cases ha : a.isWhitespace = true
        · rw [if_pos ha] at h
          exact Or.inl h
        · rw [if_neg ha] at h
          subst h
          simp [ha]
      · rcases mem_collapseWS h with h2 | ⟨hm, hw⟩
        · exact Or.inl h2
        · exact Or.inr ⟨List.mem_cons_of_mem a hm, hw⟩

theorem head_ws_collapseWS : ∀ {l : List Char} {a : Char},
    (collapseWS l).head? = some a → a.isWhitespace = true →
    ∃ b, l.head? = some b ∧ b.isWhitespace = true
  | [], a, h, _ => by simp [collapseWS] at h
  | [c], a, h, hw => by
    by_cases hc : c.isWhitespace = true
    · exact ⟨c, rfl, hc⟩
    · simp [collapseWS, hc] at h
      subst h
      exact absurd hw (by simp [hc])
  | c :: d :: t, a, h, hw => by
    by_cases hcd : (c.isWhitespace && d.isWhitespace) = true
    · exact ⟨c, rfl, (Bool.and_eq_true _ _ |>.mp hcd).1⟩
    · rw [collapseWS, if_neg hcd] at h
      simp only [List.head?_cons, Option.some_inj] at h
      by_cases hc : c.isWhitespace = true
      · exact ⟨c, rfl, hc⟩
      · rw [if_neg hc] at h
        subst h
        exact absurd hw (by simp [hc])

theorem chain_collapseWS : ∀ (l : List Char),
    List.Chain' (fun a b => ¬(a.isWhitespace = true ∧ b.isWhitespace = true)) (collapseWS l)
  | [] => by simp [collapseWS]
  | [c] => by
    by_cases hc : c.isWhitespace = true <;> simp [collapseWS, hc]
  | c :: d :: t => by
    by_cases hcd : (c.isWhitespace && d.isWhitespace) = true
    · rw [collapseWS, if_pos hcd]
      exact chain_collapseWS (d :: t)
    · rw [collapseWS, if_neg hcd]
      rw [List.chain'_cons']
      refine ⟨?_, chain_collapseWS (d :: t)⟩
      intro y hy
      rintro ⟨hx, hyw⟩
      obtain ⟨b, hb, hbw⟩ := head_ws_collapseWS hy hyw
      simp only [List.head?_cons, Option.some_inj] at hb
      subst hb
      by_cases hc : c.isWhitespace = true
      · exact hcd (by simp [hc, hbw])
      · rw [if_neg hc] at hx
        exact hc hx

theorem collapseWS_eq_self : ∀ {l : List Char},
    List.Chain' (fun a b => ¬(a.isWhitespace = true ∧ b.isWhitespace = true)) l →
    (∀ c ∈ l, c.isWhitespace = true → c = ' ') → collapseWS l = l
  | [], _, _ => rfl
  | [c], _, hws => by
    by_cases hc : c.isWhitespace = true
    · have hc2 : c = ' ' := hws c (by simp) hc
      subst hc2
      rfl
    · simp [collapseWS, hc]
  | a :: b :: t, hchain, hws => by
    rw [List.chain'_cons'] at hchain
    obtain ⟨hhd, htl⟩ := hchain
    have hab : (a.isWhitespace && b.isWhitespace) = true → False := by
      intro h
      obtain ⟨h1, h2⟩ := Bool.and_eq_true _ _ |>.mp h
      exact hhd b rfl ⟨h1, h2⟩
    rw [collapseWS, if_neg hab]
    have ht := collapseWS_eq_self htl (fun c hc hw => hws c (List.mem_cons_of_mem a hc) hw)
    rw [ht]
    by_cases ha : a.isWhitespace = true
    · rw [if_pos ha, (hws a (by simp) ha).symm]
    · rw [if_neg ha]

/-! ### `stripWS` lemmas -/

theorem head?_dropWhile_not_ws : ∀ {l : List Char} {a : Char},
    (l.dropWhile Char.isWhitespace).head? = some a → a.isWhitespace = false
  | [], a, h => by simp at h
  | c :: t, a, h => by
    by_cases hc : c.isWhitespace = true
    · rw [List.dropWhile_cons, if_pos hc] at h
      exact head?_dropWhile_not_ws h
    · rw [List.dropWhile_cons, if_neg hc] at h
      simp only [List.head?_cons, Option.some_inj] at h
      subst h
      simpa using hc

theorem getLast?_dropWhile_ws {l : List Char}
    (hne : l.dropWhile Char.isWhitespace ≠ []) :
    (l.dropWhile Char.isWhitespace).getLast? = l.getLast? := by
  obtain ⟨t, ht⟩ := @List.dropWhile_suffix _ l Char.isWhitespace
  have happ := @List.getLast?_append _ t (List.dropWhile Char.isWhitespace l)
  rw [ht] at happ
  cases hx : (List.dropWhile Char.isWhitespace l).getLast? with
  | none => exact absurd (List.getLast?_eq_none_iff.mp hx) hne
  | some b =>
    rw [happ, hx]
    rfl

theorem stripWS_getLast {l : List Char} {a : Char}
    (h : (stripWS l).getLast? = some a) : a.isWhitespace = false := by
  rw [stripWS, List.getLast?_reverse] at h
  exact head?_dropWhile_not_ws h

theorem stripWS_head {l : List Char} {a : Char}
    (h : (stripWS l).head? = some a) : a.isWhitespace = false := by
  rw [stripWS, List.head?_reverse] at h
  have hne : (List.dropWhile Char.isWhitespace
      (List.dropWhile Char.isWhitespace l).reverse) ≠ [] := by
    intro h0
    rw [h0] at h
    simp at h
  rw [getLast?_dropWhile_ws hne, List.getLast?_reverse] at h
  exact head?_dropWhile_not_ws h

theorem mem_stripWS {l : List Char} {c : Char} (h : c ∈ stripWS l) : c ∈ l := by
  rw [stripWS, List.mem_reverse] at h
  have h2 := List.Sublist.mem h (List.dropWhile_sublist _)
  rw [List.mem_reverse] at h2
  exact List.Sublist.mem h2 (List.dropWhile_sublist _)

theorem chain_stripWS {R : Char → Char → Prop} {l : List Char}
    (h : List.Chain' R l) : List.Chain' R (stripWS l) := by
  rw [stripWS, List.chain'_reverse]
  refine List.Chain'.suffix ?_ (List.dropWhile_suffix _)
  rw [List.chain'_reverse]
  exact List.Chain'.suffix h (List.dropWhile_suffix _)

theorem stripWS_eq_self {l : List Char}
    (h1 : ∀ a, l.head? = some a → a.isWhitespace = false)
    (h2 : ∀ a, l.getLast? = some a → a.isWhitespace = false) :
    stripWS l = l := by
  have e1 : l.dropWhile Char.isWhitespace = l := by
    cases l with
    | nil => rfl
    | cons c t =>
      rw [List.dropWhile_cons, if_neg]
      simp [h1 c rfl]
  rw [stripWS, e1]
  have e2 : l.reverse.dropWhile Char.isWhitespace = l.reverse := by
    cases hr : l.reverse with
    | nil => rfl
    | cons c t =>
      have hlast : l.getLast? = some c := by
        rw [← List.head?_reverse, hr]
        rfl
      rw [List.dropWhile_cons, if_neg]
      simp [h2 c hlast]
  rw [e2, List.reverse_reverse]

/-! ### Normal form of the pipeline -/

theorem normalizeChars_normalForm (l : List Char) : NormalForm (normalizeChars l) := by
  refine ⟨?_, ?_, ?_, ?_⟩
  · intro c hc
    have hc2 := mem_stripWS hc
    rcases mem_collapseWS hc2 with h | ⟨hm, hw⟩
    · exact Or.inr h
    · have hk := List.of_mem_filter hm
      left
      simp [keepChar, hw] at hk
      exact hk
  · exact chain_stripWS (chain_collapseWS _)
  · intro a ha
    exact stripWS_head ha
  · intro a ha
    exact stripWS_getLast ha

theorem normalizeChars_eq_self {l : List Char} (h : NormalForm l) :
    normalizeChars l = l := by
  obtain ⟨hmem, hchain, hhead, hlast⟩ := h
  have e1 : l.map Char.toLower = l := by
    have : ∀ a ∈ l, Char.toLower a = id a := by
      intro a ha
      rcases hmem a ha with ⟨h1, _⟩ | h1
      · exact toLower_fix h1
      · rw [h1]
        decide
    exact (List.map_congr_left this).trans (List.map_id l)
  have e2 : l.filter keepChar = l := by
    apply List.filter_eq_self.mpr
    intro a ha
    rcases hmem a ha with ⟨h1, h2⟩ | h1
    · simp [keepChar, h1, h2]
    · rw [h1]
      decide
  have e3 : collapseWS l = l := by
    apply collapseWS_eq_self hchain
    intro c hc hw
    rcases hmem c hc with ⟨h1, _⟩ | h1
    · exact absurd hw (by simp [not_ws_of_ge_a h1])
    · exact h1
  rw [normalizeChars, e1, e2, e3]
  exact stripWS_eq_self hhead hlast



/-- C5: the text normalizer is total (a Lean function on all of
`String`), and its output contains only lowercase ASCII letters and
spaces, with no two consecutive spaces and no leading or trailing
space. -/
theorem C5_normalizer_output_shape (s : String) :
    (∀ c ∈ (basic_preprocess s).data, ('a' ≤ c ∧ c ≤ 'z') ∨ c = ' ') ∧
    List.Chain' (fun a b => ¬(a = ' ' ∧ b = ' ')) (basic_preprocess s).data ∧
    (basic_preprocess s).data.head? ≠ some ' ' ∧
    (basic_preprocess s).data.getLast? ≠ some ' ' := by
  obtain ⟨h1, h2, h3, h4⟩ := normalizeChars_normalForm s.data
  refine ⟨h1, ?_, ?_, ?_⟩
  · refine h2.imp (fun a b hab h => hab ?_)
    obtain ⟨ha, hb⟩ := h
    subst ha
    subst hb
    exact ⟨by decide, by decide⟩
  · intro h
    have := h3 ' ' h
    simp at this
  · intro h
    have := h4 ' ' h
    simp at this

/-- C5 witness: the normal-form properties at a concrete messy input. -/
theorem C5_normalizer_output_shape_witness :
    (∀ c ∈ (basic_preprocess "  Hello,  World! 123 ").data, ('a' ≤ c ∧ c ≤ 'z') ∨ c = ' ') ∧
    List.Chain' (fun a b => ¬(a = ' ' ∧ b = ' '))
      (basic_preprocess "  Hello,  World! 123 ").data ∧
    (basic_preprocess "  Hello,  World! 123 ").data.head? ≠ some ' ' ∧
    (basic_preprocess "  Hello,  World! 123 ").data.getLast? ≠ some ' ' :=
  C5_normalizer_output_shape "  Hello,  World! 123 "

/-- C6: the text normalizer is idempotent:
`basic_preprocess (basic_preprocess s) = basic_preprocess s`. -/
theorem C6_normalizer_idempotent (s : String) :
    basic_preprocess (basic_preprocess s) = basic_preprocess s := by
  show (⟨normalizeChars (normalizeChars s.data)⟩ : String) = ⟨normalizeChars s.data⟩
  rw [normalizeChars_eq_self (normalizeChars_normalForm s.data)]


/-! ### Ranking lemmas -/

theorem argsortLe_trans (s : List ℚ) (a b c : ℕ) (hab : argsortLe s a b = true)
    (hbc : argsortLe s b c = true) : argsortLe s a c = true := by
  simp only [argsortLe, Bool.or_eq_true, Bool.and_eq_true, decide_eq_true_eq] at *
  rcases hab with h1 | ⟨h1, h2⟩ <;> rcases hbc with h3 | ⟨h3, h4⟩
  · exact Or.inl (h1.trans h3)
  · exact Or.inl (by rw [← h3]; exact h1)
  · exact Or.inl (by rw [h1]; exact h3)
  · exact Or.inr ⟨h1.trans h3, h2.trans h4⟩

theorem argsortLe_total (s : List ℚ) (a b : ℕ) :
    (argsortLe s a b || argsortLe s b a) = true := by
  simp only [argsortLe, Bool.or_eq_true, Bool.and_eq_true, decide_eq_true_eq]
  rcases lt_trichotomy (s.getD a 0) (s.getD b 0) with h | h | h
  · exact Or.inl (Or.inl h)
  · rcases Nat.le_total a b with h2 | h2
    · exact Or.inl (Or.inr ⟨h, h2⟩)
    · exact Or.inr (Or.inr ⟨h.symm, h2⟩)
  · exact Or.inr (Or.inl h)

theorem argsortLe_le {s : List ℚ} {a b : ℕ} (h : argsortLe s a b = true) :
    s.getD a 0 ≤ s.getD b 0 := by
  simp only [argsortLe, Bool.or_eq_true, Bool.and_eq_true, decide_eq_true_eq] at h
  rcases h with h | ⟨h, _⟩
  · exact le_of_lt h
  · exact le_of_eq h

theorem argsort_perm_range (s : List ℚ) : (argsort s).Perm (List.range s.length) :=
  List.mergeSort_perm _ _

theorem argsort_length (s : List ℚ) : (argsort s).length = s.length := by
  rw [(argsort_perm_range s).length_eq, List.length_range]

theorem argsort_pairwise (s : List ℚ) :
    List.Pairwise (fun i j => argsortLe s i j = true) (argsort s) :=
  List.sorted_mergeSort (argsortLe_trans s) (argsortLe_total s) _

theorem topIndices_length (s : List ℚ) : (topIndices s).length = min 5 s.length := by
  rw [topIndices, List.length_reverse, List.length_drop, argsort_length]
  omega

theorem topIndices_nodup (s : List ℚ) : (topIndices s).Nodup := by
  have h1 : (argsort s).Nodup :=
    ((argsort_perm_range s).symm).nodup (List.nodup_range _)
  exact List.nodup_reverse.mpr (List.Nodup.sublist (List.drop_sublist _ _) h1)

theorem mem_topIndices_lt {s : List ℚ} {i : ℕ} (h : i ∈ topIndices s) : i < s.length := by
  rw [topIndices, List.mem_reverse] at h
  have h2 := List.Sublist.mem h (List.drop_sublist _ _)
  exact List.mem_range.mp ((argsort_perm_range s).mem_iff.mp h2)

theorem topIndices_sorted (s : List ℚ) :
    List.Chain' (fun i j => s.getD j 0 ≤ s.getD i 0) (topIndices s) := by
  have h1 : List.Pairwise (fun i j => s.getD i 0 ≤ s.getD j 0)
      ((argsort s).drop (s.length - 5)) :=
    (List.Pairwise.sublist (List.drop_sublist _ _) (argsort_pairwise s)).imp
      (fun h => argsortLe_le h)
  rw [topIndices]
  exact (List.pairwise_reverse.mpr h1).chain'

theorem topIndices_topk {s : List ℚ} {i j : ℕ} (hi : i ∈ topIndices s)
    (hj : j < s.length) (hjn : j ∉ topIndices s) : s.getD j 0 ≤ s.getD i 0 := by
  rw [topIndices, List.mem_reverse] at hi hjn
  have hsplit := List.take_append_drop (s.length - 5) (argsort s)
  have hjA : j ∈ (argsort s).take (s.length - 5) ++ (argsort s).drop (s.length - 5) := by
    rw [hsplit]
    exact (argsort_perm_range s).mem_iff.mpr (List.mem_range.mpr hj)
  have hjtake : j ∈ (argsort s).take (s.length - 5) := by
    rcases List.mem_append.mp hjA with h | h
    · exact h
    · exact absurd h hjn
  have hp : List.Pairwise (fun a b => argsortLe s a b = true)
      ((argsort s).take (s.length - 5) ++ (argsort s).drop (s.length - 5)) := by
    rw [hsplit]
    exact argsort_pairwise s
  exact argsortLe_le ((List.pairwise_append.mp hp).2.2 j hjtake i hi)

/-! ### `recommend_jobs` unfolding -/

theorem recommend_jobs_some_text (sim : String → List ℚ) (job_metadata : List Row)
    (d : List (String × String)) (t : String) (h : d.lookup "text" = some t) :
    recommend_jobs sim job_metadata (some d) =
      .ok (((topIndices (sim (basic_preprocess t))).zip
          ((topIndices (sim (basic_preprocess t))).map
            (fun i => job_metadata.getD i default))).map (fun p =>
        { job_id := p.2.id
          job_title := ((asdict p.2).lookup "Job Title").getD "N/A"
          description := (((asdict p.2).lookup "Job Description").getD "").take 300
          similarity_score := round4 ((sim (basic_preprocess t)).getD p.1 0) })) := by
  simp only [recommend_jobs, h]

/-! ### The `_asdict()` lookups always miss

`collections.namedtuple(..., rename=True)` field names are valid Python
identifiers or positional `_k` names; the keys "Job Title" and
"Job Description" contain a space and do not start with an underscore,
so they can never occur in `asdict r`. -/

theorem lookup_eq_none_of_ne {β : Type} {k : String} :
    ∀ {l : List (String × β)}, (∀ p ∈ l, p.1 ≠ k) → l.lookup k = none
  | [], _ => rfl
  | (a, b) :: t, h => by
    have hne : a ≠ k := h (a, b) (List.mem_cons_self _ _)
    have hbeq : (k == a) = false := beq_eq_false_iff_ne.mpr (fun he => hne he.symm)
    simp only [List.lookup, hbeq]
    exact lookup_eq_none_of_ne (fun p hp => h p (List.mem_cons_of_mem _ hp))

theorem validFieldChars_no_space : ∀ {l : List Char}, validFieldChars l = true → ' ' ∉ l
  | [], h => absurd h (by decide)
  | c :: cs, h => by
    simp only [validFieldChars, Bool.and_eq_true, List.all_eq_true] at h
    obtain ⟨h1, h2⟩ := h
    intro hmem
    rcases List.mem_cons.mp hmem with he | hm
    · rw [← he] at h1
      exact absurd h1 (by decide)
    · exact absurd (h2 ' ' hm) (by decide)

theorem take_of_empty (n : ℕ) : ("" : String).take n = "" := by
  apply String.ext
  rw [String.data_take]
  exact List.take_nil

theorem underscore_append_ne {t k : String} (hk : k.data.head? ≠ some '_') :
    "_" ++ t ≠ k := by
  intro he
  apply hk
  rw [← he, String.data_append]
  rfl

theorem asdict_lookup_eq_none (r : Row) {k : String}
    (hsp : ' ' ∈ k.data) (hhd : k.data.head? ≠ some '_') :
    (asdict r).lookup k = none := by
  apply lookup_eq_none_of_ne
  intro p hp
  rw [asdict] at hp
  obtain ⟨q, _, hpe⟩ := List.mem_map.mp hp
  intro he
  have he2 : (if validFieldName q.2.1 then q.2.1 else "_" ++ toString (q.1 + 1)) = k := by
    rw [← hpe] at he
    exact he
  by_cases hv : validFieldName q.2.1 = true
  · rw [if_pos hv] at he2
    rw [he2, validFieldName] at hv
    exact validFieldChars_no_space hv hsp
  · rw [if_neg hv] at he2
    exact underscore_append_ne hhd he2

theorem asdict_lookup_job_title (r : Row) :
    (asdict r).lookup "Job Title" = none :=
  asdict_lookup_eq_none r (by decide) (by decide)

theorem asdict_lookup_job_description (r : Row) :
    (asdict r).lookup "Job Description" = none :=
  asdict_lookup_eq_none r (by decide) (by decide)

/-- On every request that reaches the ranking code, every recommendation
the handler produces has `job_title = "N/A"` and `description = ""`,
whatever the metadata rows contain: the `_asdict()` lookups always
miss their renamed keys. -/
theorem recommend_jobs_fields_always_default (sim : String → List ℚ)
    (job_metadata : List Row) (d : List (String × String)) (t : String)
    (h : d.lookup "text" = some t) :
    ∃ recs, recommend_jobs sim job_metadata (some d) = .ok recs ∧
      ∀ rec ∈ recs, rec.job_title = "N/A" ∧ rec.description = "" := by
  refine ⟨_, recommend_jobs_some_text sim job_metadata d t h, ?_⟩
  intro rec hrec
  obtain ⟨p, _, he⟩ := List.mem_map.mp hrec
  rw [← he]
  constructor
  · simp [asdict_lookup_job_title]
  · have hd := asdict_lookup_job_description p.2
    simp [hd, take_of_empty]

/-! ### Claim theorems about the handlers -/

/-- C1: on any request body carrying a `text` value, `/recommend`
returns `.ok` with exactly `min 5 n` recommendations (where `n` is the
number of jobs scored by the similarity vector), built from the
`min 5 n` distinct in-range indices of `topIndices`, which are listed in
non-increasing order of similarity score and dominate every unselected
row's score. -/
theorem C1_recommend_top5 (sim : String → List ℚ) (job_metadata : List Row) (t : String) :
    ∃ recs, recommend_jobs sim job_metadata (some [("text", t)]) = .ok recs ∧
      recs.length = min 5 (sim (basic_preprocess t)).length ∧
      (topIndices (sim (basic_preprocess t))).length = min 5 (sim (basic_preprocess t)).length ∧
      (topIndices (sim (basic_preprocess t))).Nodup ∧
      (∀ i ∈ topIndices (sim (basic_preprocess t)), i < (sim (basic_preprocess t)).length) ∧
      List.Chain' (fun i j =>
          (sim (basic_preprocess t)).getD j 0 ≤ (sim (basic_preprocess t)).getD i 0)
        (topIndices (sim (basic_preprocess t))) ∧
      (∀ i ∈ topIndices (sim (basic_preprocess t)),
        ∀ j < (sim (basic_preprocess t)).length, j ∉ topIndices (sim (basic_preprocess t)) →
          (sim (basic_preprocess t)).getD j 0 ≤ (sim (basic_preprocess t)).getD i 0) := by
  refine ⟨_, recommend_jobs_some_text sim job_metadata [("text", t)] t rfl, ?_,
    topIndices_length _, topIndices_nodup _, fun i hi => mem_topIndices_lt hi,
    topIndices_sorted _, fun i hi j hj hjn => topIndices_topk hi hj hjn⟩
  rw [List.length_map, List.length_zip, List.length_map, min_self, topIndices_length]

/-- C1 witness: a concrete three-job instance. -/
theorem C1_recommend_top5_witness :
    ∃ recs, recommend_jobs (fun _ => [1, 3, 2]) [] (some [("text", "hi")]) = .ok recs ∧
      recs.length = min 5 3 := by
  obtain ⟨recs, h1, h2, _⟩ := C1_recommend_top5 (fun _ => [1, 3, 2]) [] "hi"
  exact ⟨recs, h1, h2⟩

/-- C3 (code bug): the claim says `job_title` is the metadata title
field (default "N/A" only when absent) and `description` the first 300
characters of the metadata description field (default "" only when
absent); but pandas `itertuples` renames the space-containing columns
"Job Title" and "Job Description" to positional `_k` fields, so the
handler's `row._asdict().get(...)` lookups always miss.  At a metadata
row that DOES carry both columns, `/recommend` still returns
`job_title = "N/A"` and `description = ""` instead of the stored
"Engineer" / "Builds things". -/
theorem C3_fields_default_failing_input :
    recommend_jobs (fun _ => [1])
      [⟨7, [("Job Title", "Engineer"), ("Job Description", "Builds things")]⟩]
      (some [("text", "x")]) =
      .ok [{ job_id := 7, job_title := "N/A", description := "",
             similarity_score := 1 }] := by
  rw [recommend_jobs_some_text (fun _ => [1])
    [⟨7, [("Job Title", "Engineer"), ("Job Description", "Builds things")]⟩]
    [("text", "x")] "x" rfl]
  have htop : topIndices [(1 : ℚ)] = [0] := by
    have h1 : List.range (List.length [(1 : ℚ)]) = [0] := rfl
    rw [topIndices, argsort, h1, List.mergeSort_singleton]
    rfl
  have hr4 : round4 1 = 1 := by
    rw [round4]
    norm_num [round_eq]
  rw [htop]
  simp [asdict_lookup_job_title, asdict_lookup_job_description, take_of_empty, hr4]

/-- C8: a `/recommend` request whose body is absent (or not a JSON
object) or lacks the key "text" yields exactly the 400
`{"detail": "Missing 'text' in request body"}` short-circuit. -/
theorem C8_recommend_missing_text (sim : String → List ℚ) (job_metadata : List Row)
    (body : Option (List (String × String)))
    (h : body = none ∨ ∃ d, body = some d ∧ d.lookup "text" = none) :
    recommend_jobs sim job_metadata body = .missingText := by
  rcases h with h | ⟨d, hd, hl⟩
  · rw [h]
    rfl
  · rw [hd]
    simp only [recommend_jobs, hl]

/-- C8 witness: a body with no "text" key. -/
theorem C8_recommend_missing_text_witness :
    recommend_jobs (fun _ => [1]) [] (some [("other", "x")]) = .missingText :=
  C8_recommend_missing_text (fun _ => [1]) [] (some [("other", "x")])
    (Or.inr ⟨[("other", "x")], rfl, rfl⟩)


/-- C2: the auth gate allows CORS preflight (OPTIONS) unconditionally,
allows the status page and health check unconditionally, and otherwise
short-circuits with 401 `{"detail": "Unauthorized"}` exactly when the
Authorization header is absent or differs from `"Bearer <token>"`. -/
theorem C2_auth_gate (token : String) (req : HttpRequest) :
    (req.method = "OPTIONS" → check_auth token req = .allow) ∧
    ((req.endpoint = some "root" ∨ req.endpoint = some "healthcheck") →
      check_auth token req = .allow) ∧
    (req.method ≠ "OPTIONS" → req.endpoint ≠ some "root" → req.endpoint ≠ some "healthcheck" →
      (check_auth token req = .unauthorized ↔
        req.headers.lookup "Authorization" ≠ some ("Bearer " ++ token))) := by
  refine ⟨?_, ?_, ?_⟩
  · intro h
    rw [check_auth, if_pos h]
  · intro h
    rw [check_auth]
    by_cases hm : req.method = "OPTIONS"
    · rw [if_pos hm]
    · rw [if_neg hm, if_pos h]
  · intro hm he1 he2
    rw [check_auth, if_neg hm, if_neg (by rintro (h | h) <;> [exact he1 h; exact he2 h])]
    by_cases hh : req.headers.lookup "Authorization" = some ("Bearer " ++ token)
    · rw [if_pos hh]
      simp [hh]
    · rw [if_neg hh]
      simp [hh]

/-- C2 witness: a protected GET with no Authorization header is 401. -/
theorem C2_auth_gate_witness :
    check_auth "tok" ⟨"GET", some "get_all_categories", []⟩ = .unauthorized := by
  have h := (C2_auth_gate "tok" ⟨"GET", some "get_all_categories", []⟩).2.2
    (by decide) (by decide) (by decide)
  exact h.mpr (by simp)

/-- C4: `/jobs/{id}` answers 404 `{"detail": "Job not found"}` exactly
when no metadata row has the requested id, and answers 200 with the
stored row when exactly one row matches. -/
theorem C4_job_detail_lookup (job_metadata : List Row) (job_id : Int) :
    (get_job_detail job_metadata job_id = .notFound ↔
      ∀ r ∈ job_metadata, r.id ≠ job_id) ∧
    (∀ r, job_metadata.filter (fun x => x.id == job_id) = [r] →
      get_job_detail job_metadata job_id = .ok r) := by
  constructor
  · cases hf : job_metadata.filter (fun x => x.id == job_id) with
    | nil =>
      simp only [get_job_detail, hf]
      constructor
      · intro _ r hr hid
        have hmem : r ∈ job_metadata.filter (fun x => x.id == job_id) :=
          List.mem_filter.mpr ⟨hr, by simp [hid]⟩
        rw [hf] at hmem
        cases hmem
      · intro _
        trivial
    | cons r l =>
      simp only [get_job_detail, hf]
      constructor
      · intro h
        cases h
      · intro hall
        have hmem : r ∈ job_metadata.filter (fun x => x.id == job_id) := by
          rw [hf]
          exact List.mem_cons_self r l
        have h2 := List.mem_filter.mp hmem
        exact absurd (by simpa using h2.2) (hall r h2.1)
  · intro r hr
    simp only [get_job_detail, hr]

/-- C4 witness: a two-row table, one absent id and one present id. -/
theorem C4_job_detail_lookup_witness :
    get_job_detail [⟨1, []⟩, ⟨2, []⟩] 3 = .notFound ∧
    get_job_detail [⟨1, []⟩, ⟨2, []⟩] 2 = .ok ⟨2, []⟩ := by
  constructor
  · exact (C4_job_detail_lookup [⟨1, []⟩, ⟨2, []⟩] 3).1.mpr (by decide)
  · exact (C4_job_detail_lookup [⟨1, []⟩, ⟨2, []⟩] 2).2 ⟨2, []⟩ (by decide)

/-- C7: `/categories` returns the classifier's label set sorted
lexicographically ascending, without duplicates (fitted classifiers
have duplicate-free label arrays, hypothesis `h`). -/
theorem C7_categories_sorted (classes : List String) (h : classes.Nodup) :
    List.Sorted (· ≤ ·) (get_all_categories classes) ∧
    (get_all_categories classes).Nodup ∧
    (get_all_categories classes).Perm classes := by
  refine ⟨?_, ?_, List.mergeSort_perm _ _⟩
  · have htrans : ∀ a b c : String, (decide (a ≤ b)) = true → (decide (b ≤ c)) = true →
        (decide (a ≤ c)) = true := by
      intro a b c hab hbc
      simp only [decide_eq_true_eq] at *
      exact le_trans hab hbc
    have htotal : ∀ a b : String, ((decide (a ≤ b)) || (decide (b ≤ a))) = true := by
      intro a b
      simp only [Bool.or_eq_true, decide_eq_true_eq]
      exact le_total a b
    have hp := @List.sorted_mergeSort String (fun a b => decide (a ≤ b)) htrans htotal classes
    exact hp.imp (fun hab => by simpa using hab)
  · exact ((List.mergeSort_perm classes _).symm).nodup h

/-- C7 witness: two labels out of order. -/
theorem C7_categories_sorted_witness :
    List.Sorted (· ≤ ·) (get_all_categories ["b", "a"]) ∧
    (get_all_categories ["b", "a"]).Nodup ∧
    (get_all_categories ["b", "a"]).Perm ["b", "a"] :=
  C7_categories_sorted ["b", "a"] (by decide)

/-- C9: when the API_TOKEN environment variable is unset the secret
defaults to "default_token", and the gate then accepts any request
carrying `Authorization: Bearer default_token`. -/
theorem C9_default_token (env : List (String × String)) (req : HttpRequest)
    (henv : env.lookup "API_TOKEN" = none)
    (hauth : req.headers.lookup "Authorization" = some "Bearer default_token") :
    API_TOKEN env = "default_token" ∧ check_auth (API_TOKEN env) req = .allow := by
  have htok : API_TOKEN env = "default_token" := by
    rw [API_TOKEN, getenv, henv]
    rfl
  refine ⟨htok, ?_⟩
  rw [htok, check_auth]
  by_cases hm : req.method = "OPTIONS"
  · rw [if_pos hm]
  · rw [if_neg hm]
    by_cases he : req.endpoint = some "root" ∨ req.endpoint = some "healthcheck"
    · rw [if_pos he]
    · rw [if_neg he, if_pos (by rw [hauth]; rfl)]

/-- C9 witness: empty environment, protected POST with the default
bearer token. -/
theorem C9_default_token_witness :
    API_TOKEN [] = "default_token" ∧
    check_auth (API_TOKEN [])
      ⟨"POST", some "recommend_jobs", [("Authorization", "Bearer default_token")]⟩ = .allow :=
  C9_default_token [] ⟨"POST", some "recommend_jobs",
    [("Authorization", "Bearer default_token")]⟩ rfl rfl

/-- C10: when several rows share the requested id, `/jobs/{id}` returns
200 with the first matching row in table order. -/
theorem C10_duplicate_id_first (job_metadata : List Row) (job_id : Int) (r : Row)
    (l : List Row) (h : job_metadata.filter (fun x => x.id == job_id) = r :: l)
    (_hl : l ≠ []) : get_job_detail job_metadata job_id = .ok r := by
  simp only [get_job_detail, h]

/-- C10 witness: two rows with id 1; the first is returned. -/
theorem C10_duplicate_id_first_witness :
    get_job_detail [⟨1, [("a", "b")]⟩, ⟨1, []⟩] 1 = .ok ⟨1, [("a", "b")]⟩ :=
  C10_duplicate_id_first [⟨1, [("a", "b")]⟩, ⟨1, []⟩] 1 ⟨1, [("a", "b")]⟩ [⟨1, []⟩]
    (by decide) (by decide)

end JobMate
